import Mathlib

/-!
Verification of the numeric core of src/mandelbrot.py.

Modelling conventions: Python floats are modelled as real numbers (ℝ),
Python ints as ℕ, and a Python ZeroDivisionError as Option.none.  The
functions log_step, n_for_point and calc_frame, the constants zoom_on,
x_dist_l, x_dist_h, y_dist_l, y_dist_h from main, and the per-frame
computation of update_graph are translated below from the source.
-/

noncomputable section

/-- The while-loop of n_for_point (src/mandelbrot.py lines 28-36): state is
the current iterate z and the 1-based counter n.  Python compares the int
counter with the (possibly fractional) float bound, so the bound n_max is
a real number here. -/
def n_loop (c : ℂ) (n_max : ℝ) (z : ℂ) (n : ℕ) : ℕ :=
  if h : (n : ℝ) ≤ n_max then
    let z2 := z * z + c
    if 2 < Complex.abs z2 then n
    else n_loop c n_max z2 (n + 1)
  else n
termination_by ⌊n_max⌋.toNat + 1 - n
decreasing_by
  have h1 : (n : ℤ) ≤ ⌊n_max⌋ := Int.le_floor.mpr (by exact_mod_cast h)
  omega

/-- n_for_point (src/mandelbrot.py lines 20-36): n = 1, c = complex(xr, xi),
z = 0, then the while loop.  The Python default for n_max is 20; callers in
this file always pass it explicitly. -/
def n_for_point (xr xi : ℝ) (n_max : ℝ) : ℕ :=
  n_loop ⟨xr, xi⟩ n_max 0 1

/-- The orbit z_0 = 0, z_{k+1} = z_k * z_k + c of the iteration performed by
n_for_point, used to state the escape-time properties. -/
def zseq (c : ℂ) : ℕ → ℂ
  | 0 => 0
  | k + 1 => zseq c k * zseq c k + c

/-- np.linspace(a, b, num): num evenly spaced samples from a to b, both
endpoints included.  numpy special-cases num = 1, returning just [a]. -/
def linspace (a b : ℝ) (num : ℕ) : List ℝ :=
  if num = 1 then [a]
  else (List.range num).map fun i : ℕ => a + (b - a) * (i : ℝ) / ((num : ℝ) - 1)

/-- calc_frame (src/mandelbrot.py lines 39-53).  np.meshgrid followed by
ravel, n_for_point on each coordinate pair, and reshape back to the meshgrid
shape yields the row-major grid ns[row][col] = n_for_point(x_vector[col],
y_vector[row], n_max), which is written here as a nested map. -/
def calc_frame (x_shape y_shape : ℝ × ℝ) (res : ℕ) (n_max : ℝ) : List (List ℕ) :=
  let x_vector := linspace x_shape.1 x_shape.2 res
  let y_vector := linspace y_shape.1 y_shape.2 res
  y_vector.map fun y => x_vector.map fun x => n_for_point x y n_max

/-- The arithmetic body of log_step (src/mandelbrot.py line 17):
np.log(1 + ((np.e ** x) - 1) * (step / step_max)) / x, with real-number
division.  np.e ** x is real exponentiation of the constant e = exp 1. -/
def log_step_val (step step_max x : ℝ) : ℝ :=
  Real.log (1 + (Real.exp 1 ^ x - 1) * (step / step_max)) / x

/-- log_step (src/mandelbrot.py lines 8-17).  Python raises
ZeroDivisionError when step_max = 0 (the division step/step_max) or when
x = 0 (the final division by x); none models that exception. -/
def log_step (step step_max x : ℝ) : Option ℝ :=
  if step_max = 0 ∨ x = 0 then none
  else some (log_step_val step step_max x)

/-- zoom_on (src/mandelbrot.py line 93): the fixed focal point (-0.75, 0.1). -/
def zoom_on : ℝ × ℝ := (-0.75, 0.1)

/-- x_dist_l (line 94): abs(-2 - zoom_on[0]). -/
def x_dist_l : ℝ := |(-2 : ℝ) - zoom_on.1|

/-- x_dist_h (line 95): abs(2 - zoom_on[0]). -/
def x_dist_h : ℝ := |(2 : ℝ) - zoom_on.1|

/-- y_dist_l (line 96): abs(-2 - zoom_on[1]). -/
def y_dist_l : ℝ := |(-2 : ℝ) - zoom_on.2|

/-- y_dist_h (line 97): abs(2 - zoom_on[1]). -/
def y_dist_h : ℝ := |(2 : ℝ) - zoom_on.2|

/-- update_graph (src/mandelbrot.py lines 113-118): the x_shape and y_shape
viewport bounds and the iteration depth 20 + (n_max - 20) * log_step(...)
that frame i hands to calc_frame.  All five log_step calls in the source
have identical arguments and log_step is pure, so the value is shared; if
log_step raises (fcount = 1 or zoom_factor = 0) the frame computation dies,
modelled by Option.map. -/
def update_graph (i fcount : ℕ) (zoom_max zoom_factor n_max : ℝ) :
    Option ((ℝ × ℝ) × (ℝ × ℝ) × ℝ) :=
  (log_step (i : ℝ) ((fcount : ℝ) - 1) zoom_factor).map fun f =>
    ((-2 + x_dist_l * (1 - zoom_max) * f, 2 - x_dist_h * (1 - zoom_max) * f),
     (-2 + y_dist_l * (1 - zoom_max) * f, 2 - y_dist_h * (1 - zoom_max) * f),
     20 + (n_max - 20) * f)

end

/-- The escape test 2 < abs z of the source, rewritten without the square
root so that concrete instances can be settled by norm_num. -/
theorem two_lt_abs_iff (z : ℂ) :
    2 < Complex.abs z ↔ 4 < z.re * z.re + z.im * z.im := by
  rw [Complex.abs_apply, Complex.normSq_apply]
  rw [show (2 : ℝ) = Real.sqrt 4 by
    rw [show (4 : ℝ) = 2 ^ 2 by norm_num, Real.sqrt_sq (by norm_num)]]
  rw [Real.sqrt_lt_sqrt_iff (by norm_num)]

/-- Stepping the orbit: for n ≥ 1, the loop body z * z + c applied to
zseq c (n - 1) gives zseq c n. -/
theorem zseq_step (c : ℂ) (n : ℕ) (hn : 1 ≤ n) :
    zseq c (n - 1) * zseq c (n - 1) + c = zseq c n := by
  cases n with
  | zero => omega
  | succ k => simp [zseq]

/-- Full characterization of the while loop of n_for_point when the bound is
a natural number m: starting at counter n with z = zseq c (n-1), the result
is the first index in [n, m] whose orbit value has absolute value above 2,
and m + 1 when there is none. -/
theorem n_loop_spec (c : ℂ) (m : ℕ) :
    ∀ fuel n, m + 1 - n ≤ fuel → 1 ≤ n → n ≤ m + 1 →
      n ≤ n_loop c (m : ℝ) (zseq c (n - 1)) n ∧
      n_loop c (m : ℝ) (zseq c (n - 1)) n ≤ m + 1 ∧
      (n_loop c (m : ℝ) (zseq c (n - 1)) n ≤ m →
        2 < Complex.abs (zseq c (n_loop c (m : ℝ) (zseq c (n - 1)) n)) ∧
        ∀ j, n ≤ j → j < n_loop c (m : ℝ) (zseq c (n - 1)) n →
          Complex.abs (zseq c j) ≤ 2) ∧
      (n_loop c (m : ℝ) (zseq c (n - 1)) n = m + 1 →
        ∀ j, n ≤ j → j ≤ m → Complex.abs (zseq c j) ≤ 2) ∧
      ((∀ j, n ≤ j → j ≤ m → Complex.abs (zseq c j) ≤ 2) →
        n_loop c (m : ℝ) (zseq c (n - 1)) n = m + 1) := by
  intro fuel
  induction fuel with
  | zero =>
    intro n hfuel hn1 hnm
    have hn : n = m + 1 := by omega
    subst hn
    rw [n_loop]
    have hc : ¬ ((m + 1 : ℕ) : ℝ) ≤ (m : ℝ) := by push_cast; linarith
    rw [dif_neg hc]
    refine ⟨le_refl _, le_refl _, fun h => by omega, ?_, fun _ => rfl⟩
    intro _ j hj1 hj2
    exact absurd (le_trans hj1 hj2) (by omega)
  | succ fuel ih =>
    intro n hfuel hn1 hnm
    rw [n_loop]
    by_cases hc : ((n : ℕ) : ℝ) ≤ (m : ℝ)
    · have hnm' : n ≤ m := by exact_mod_cast hc
      rw [dif_pos hc]
      simp only [zseq_step c n hn1]
      by_cases hesc : 2 < Complex.abs (zseq c n)
      · rw [if_pos hesc]
        refine ⟨le_refl n, by omega, fun _ => ⟨hesc, ?_⟩, ?_, ?_⟩
        · intro j hj1 hj2; exact absurd (lt_of_le_of_lt hj1 hj2) (lt_irrefl n)
        · intro hn_eq; exact absurd hn_eq (by omega)
        · intro hall; exact absurd hesc (not_lt.mpr (hall n le_rfl hnm'))
      · rw [if_neg hesc]
        have hno : Complex.abs (zseq c n) ≤ 2 := not_lt.mp hesc
        have hrec := ih (n + 1) (by omega) (by omega) (by omega)
        rw [Nat.add_sub_cancel] at hrec
        obtain ⟨h1, h2, h3, h4, h5⟩ := hrec
        refine ⟨by omega, h2, ?_, ?_, ?_⟩
        · intro hle
          obtain ⟨he, hlt⟩ := h3 hle
          refine ⟨he, fun j hj1 hj2 => ?_⟩
          rcases Nat.eq_or_lt_of_le hj1 with hj | hj
          · exact hj ▸ hno
          · exact hlt j hj hj2
        · intro heq j hj1 hj2
          rcases Nat.eq_or_lt_of_le hj1 with hj | hj
          · exact hj ▸ hno
          · exact h4 heq j hj hj2
        · intro hall
          exact h5 fun j hj1 hj2 => hall j (by omega) hj2
    · rw [dif_neg hc]
      have hgt : m < n := by
        by_contra hle
        exact hc (by exact_mod_cast not_lt.mp hle)
      have hn : n = m + 1 := by omega
      refine ⟨le_refl _, by omega, fun h => by omega, ?_, fun _ => hn⟩
      intro _ j hj1 hj2
      exact absurd (le_trans hj1 hj2) (by omega)

/-- Characterization of n_for_point for a natural-number iteration bound m:
the result r lies in [1, m+1]; if r ≤ m then the orbit escapes exactly at
index r and at no earlier index; r = m + 1 exactly when no orbit index in
[1, m] escapes. -/
theorem n_for_point_spec (xr xi : ℝ) (m : ℕ) :
    1 ≤ n_for_point xr xi (m : ℝ) ∧
    n_for_point xr xi (m : ℝ) ≤ m + 1 ∧
    (n_for_point xr xi (m : ℝ) ≤ m →
      2 < Complex.abs (zseq ⟨xr, xi⟩ (n_for_point xr xi (m : ℝ))) ∧
      ∀ j, 1 ≤ j → j < n_for_point xr xi (m : ℝ) →
        Complex.abs (zseq ⟨xr, xi⟩ j) ≤ 2) ∧
    (n_for_point xr xi (m : ℝ) = m + 1 →
      ∀ j, 1 ≤ j → j ≤ m → Complex.abs (zseq ⟨xr, xi⟩ j) ≤ 2) ∧
    ((∀ j, 1 ≤ j → j ≤ m → Complex.abs (zseq ⟨xr, xi⟩ j) ≤ 2) →
      n_for_point xr xi (m : ℝ) = m + 1) := by
  have h := n_loop_spec ⟨xr, xi⟩ m m 1 (by omega) le_rfl (by omega)
  simpa [n_for_point, zseq] using h

/-- The complement of the escape test, in square form. -/
theorem abs_le_two_iff (z : ℂ) :
    Complex.abs z ≤ 2 ↔ z.re * z.re + z.im * z.im ≤ 4 := by
  rw [← not_lt, two_lt_abs_iff, not_lt]

/-- The loop of n_for_point takes the same branches, hence returns the same
count, for two real bounds that agree on all comparisons with counters ≥ 1. -/
theorem n_loop_congr (c : ℂ) (nm1 nm2 : ℝ)
    (h : ∀ k : ℕ, 1 ≤ k → (((k : ℝ) ≤ nm1) ↔ ((k : ℝ) ≤ nm2))) :
    ∀ fuel z n, 1 ≤ n → ⌊nm1⌋.toNat + 1 - n ≤ fuel →
      n_loop c nm1 z n = n_loop c nm2 z n := by
  intro fuel
  induction fuel with
  | zero =>
    intro z n hn hfuel
    rw [n_loop, n_loop]
    have hc1 : ¬ ((n : ℝ) ≤ nm1) := by
      intro hle
      have : (n : ℤ) ≤ ⌊nm1⌋ := Int.le_floor.mpr (by exact_mod_cast hle)
      omega
    rw [dif_neg hc1, dif_neg (fun hc2 => hc1 ((h n hn).mpr hc2))]
  | succ fuel ih =>
    intro z n hn hfuel
    rw [n_loop, n_loop]
    by_cases hc1 : (n : ℝ) ≤ nm1
    · have hc2 := (h n hn).mp hc1
      rw [dif_pos hc1, dif_pos hc2]
      dsimp only
      by_cases hesc : 2 < Complex.abs (z * z + c)
      · rw [if_pos hesc, if_pos hesc]
      · rw [if_neg hesc, if_neg hesc]
        have hb : (n : ℤ) ≤ ⌊nm1⌋ := Int.le_floor.mpr (by exact_mod_cast hc1)
        exact ih (z * z + c) (n + 1) (by omega) (by omega)
    · rw [dif_neg hc1, dif_neg (fun hc2 => hc1 ((h n hn).mpr hc2))]

/-- C1: for every finite point (xr, xi) and every integer bound n ≥ 1,
n_for_point returns the 1-based index of the first orbit element whose
absolute value exceeds 2 (it escapes there and at no earlier index ≥ 1),
returns the sentinel n + 1 exactly when no index in [1, n] escapes, and the
result always lies in [1, n + 1]. -/
theorem C1_escape_time (xr xi : ℝ) (n : ℕ) (hn : 1 ≤ n) :
    1 ≤ n_for_point xr xi (n : ℝ) ∧
    n_for_point xr xi (n : ℝ) ≤ n + 1 ∧
    (n_for_point xr xi (n : ℝ) ≤ n →
      2 < Complex.abs (zseq ⟨xr, xi⟩ (n_for_point xr xi (n : ℝ))) ∧
      ∀ j, 1 ≤ j → j < n_for_point xr xi (n : ℝ) →
        Complex.abs (zseq ⟨xr, xi⟩ j) ≤ 2) ∧
    (n_for_point xr xi (n : ℝ) = n + 1 →
      ∀ j, 1 ≤ j → j ≤ n → Complex.abs (zseq ⟨xr, xi⟩ j) ≤ 2) ∧
    ((∀ j, 1 ≤ j → j ≤ n → Complex.abs (zseq ⟨xr, xi⟩ j) ≤ 2) →
      n_for_point xr xi (n : ℝ) = n + 1) :=
  n_for_point_spec xr xi n

/-- C1 witness at the concrete input c = 3 + 0i, n = 2. -/
theorem C1_escape_time_witness :
    1 ≤ 2 ∧
    (1 ≤ n_for_point 3 0 ((2 : ℕ) : ℝ) ∧
    n_for_point 3 0 ((2 : ℕ) : ℝ) ≤ 2 + 1 ∧
    (n_for_point 3 0 ((2 : ℕ) : ℝ) ≤ 2 →
      2 < Complex.abs (zseq ⟨3, 0⟩ (n_for_point 3 0 ((2 : ℕ) : ℝ))) ∧
      ∀ j, 1 ≤ j → j < n_for_point 3 0 ((2 : ℕ) : ℝ) →
        Complex.abs (zseq ⟨3, 0⟩ j) ≤ 2) ∧
    (n_for_point 3 0 ((2 : ℕ) : ℝ) = 2 + 1 →
      ∀ j, 1 ≤ j → j ≤ 2 → Complex.abs (zseq ⟨3, 0⟩ j) ≤ 2) ∧
    ((∀ j, 1 ≤ j → j ≤ 2 → Complex.abs (zseq ⟨3, 0⟩ j) ≤ 2) →
      n_for_point 3 0 ((2 : ℕ) : ℝ) = 2 + 1)) :=
  ⟨by norm_num, C1_escape_time 3 0 2 (by norm_num)⟩

/-- C9: every point whose absolute value exceeds 2 escapes at the very first
iteration; the point c = 0 never escapes and yields the sentinel n + 1; the
bounded period-2 point c = -1 never escapes and yields the sentinel n + 1. -/
theorem C9_known_points :
    (∀ xr xi : ℝ, 2 < Complex.abs (⟨xr, xi⟩ : ℂ) →
      ∀ n : ℕ, 1 ≤ n → n_for_point xr xi (n : ℝ) = 1) ∧
    (∀ n : ℕ, 1 ≤ n → n_for_point 0 0 (n : ℝ) = n + 1) ∧
    (∀ n : ℕ, 1 ≤ n → n_for_point (-1) 0 (n : ℝ) = n + 1) := by
  refine ⟨?_, ?_, ?_⟩
  · intro xr xi h n hn
    obtain ⟨h1, h2, h3, h4, h5⟩ := n_for_point_spec xr xi n
    by_contra hne
    have habs : Complex.abs (zseq (⟨xr, xi⟩ : ℂ) 1) ≤ 2 := by
      rcases Nat.lt_or_ge (n_for_point xr xi (n : ℝ)) (n + 1) with hlt | hge
      · exact (h3 (by omega)).2 1 le_rfl (by omega)
      · exact h4 (by omega) 1 le_rfl hn
    rw [show zseq (⟨xr, xi⟩ : ℂ) 1 = ⟨xr, xi⟩ by simp [zseq]] at habs
    exact absurd h (not_lt.mpr habs)
  · intro n hn
    have hz : ∀ k, zseq (⟨0, 0⟩ : ℂ) k = ⟨0, 0⟩ := by
      intro k
      induction k with
      | zero => simp [zseq, Complex.ext_iff]
      | succ k ih => simp [zseq, ih, Complex.ext_iff]
    exact (n_for_point_spec 0 0 n).2.2.2.2 fun j _ _ => by
      rw [hz j, abs_le_two_iff]; norm_num
  · intro n hn
    have hz : ∀ k, zseq (⟨-1, 0⟩ : ℂ) k = ⟨0, 0⟩ ∨ zseq (⟨-1, 0⟩ : ℂ) k = ⟨-1, 0⟩ := by
      intro k
      induction k with
      | zero => left; simp [zseq, Complex.ext_iff]
      | succ k ih =>
        rcases ih with h0 | h1
        · right; simp [zseq, h0, Complex.ext_iff]
        · left; simp [zseq, h1, Complex.ext_iff]
    exact (n_for_point_spec (-1) 0 n).2.2.2.2 fun j _ _ => by
      rcases hz j with h0 | h1
      · rw [h0, abs_le_two_iff]; norm_num
      · rw [h1, abs_le_two_iff]; norm_num

/-- C9 witness at n = 2 for all three named points. -/
theorem C9_known_points_witness :
    (2 < Complex.abs (⟨3, 0⟩ : ℂ) ∧ 1 ≤ 2) ∧
    n_for_point 3 0 ((2 : ℕ) : ℝ) = 1 ∧
    n_for_point 0 0 ((2 : ℕ) : ℝ) = 2 + 1 ∧
    n_for_point (-1) 0 ((2 : ℕ) : ℝ) = 2 + 1 :=
  ⟨⟨by rw [two_lt_abs_iff]; norm_num, by norm_num⟩,
   C9_known_points.1 3 0 (by rw [two_lt_abs_iff]; norm_num) 2 (by norm_num),
   C9_known_points.2.1 2 (by norm_num),
   C9_known_points.2.2 2 (by norm_num)⟩

/-- For a real bound nm ≥ 1 the loop condition n ≤ nm is equivalent to
n ≤ floor(nm), so n_for_point behaves exactly as with the integer bound
floor(nm). -/
theorem n_for_point_floor (xr xi nm : ℝ) (h : 1 ≤ nm) :
    n_for_point xr xi nm = n_for_point xr xi ((⌊nm⌋.toNat : ℕ) : ℝ) := by
  have hcast : ∀ k : ℕ, 1 ≤ k → (((k : ℝ) ≤ nm) ↔ ((k : ℝ) ≤ ((⌊nm⌋.toNat : ℕ) : ℝ))) := by
    intro k hk
    constructor
    · intro hle
      have h1 : (k : ℤ) ≤ ⌊nm⌋ := Int.le_floor.mpr (by exact_mod_cast hle)
      exact_mod_cast (by omega : (k : ℤ) ≤ (⌊nm⌋.toNat : ℤ))
    · intro hle
      have h1 : (k : ℤ) ≤ (⌊nm⌋.toNat : ℤ) := by exact_mod_cast hle
      have h2 : ((k : ℤ) : ℝ) ≤ nm := by
        refine le_trans ?_ (Int.floor_le nm)
        exact_mod_cast (by omega : (k : ℤ) ≤ ⌊nm⌋)
      exact_mod_cast h2
  rw [n_for_point, n_for_point]
  exact n_loop_congr ⟨xr, xi⟩ nm ((⌊nm⌋.toNat : ℕ) : ℝ) hcast
    (⌊nm⌋.toNat + 1) 0 1 le_rfl (by omega)

/-- C10: n_for_point is total on every real bound; below 1 the loop body
never runs and the result is 1; for a real bound ≥ 1 (in particular the
non-integral depths the frame loop passes) the function behaves exactly as
with the integer bound floor(n_max), so the result is an integer in
[1, floor(n_max) + 1]. -/
theorem C10_real_bound (xr xi nm : ℝ) :
    (nm < 1 → n_for_point xr xi nm = 1) ∧
    (1 ≤ nm →
      n_for_point xr xi nm = n_for_point xr xi ((⌊nm⌋.toNat : ℕ) : ℝ) ∧
      1 ≤ n_for_point xr xi nm ∧
      n_for_point xr xi nm ≤ ⌊nm⌋.toNat + 1) := by
  constructor
  · intro h
    rw [n_for_point, n_loop]
    rw [dif_neg (by push_cast; linarith)]
  · intro h
    have hcong := n_for_point_floor xr xi nm h
    refine ⟨hcong, ?_, ?_⟩
    · rw [hcong]; exact (n_for_point_spec xr xi ⌊nm⌋.toNat).1
    · rw [hcong]; exact (n_for_point_spec xr xi ⌊nm⌋.toNat).2.1

/-- C10 witness at the non-integral bound 5/2 and at the bound 1/2 < 1. -/
theorem C10_real_bound_witness :
    ((1 : ℝ)/2 < 1 ∧ n_for_point 0 0 (1/2) = 1) ∧
    (1 ≤ (5 : ℝ)/2 ∧
      n_for_point 0 0 ((5 : ℝ)/2) = n_for_point 0 0 ((⌊(5 : ℝ)/2⌋.toNat : ℕ) : ℝ) ∧
      1 ≤ n_for_point 0 0 ((5 : ℝ)/2) ∧
      n_for_point 0 0 ((5 : ℝ)/2) ≤ ⌊(5 : ℝ)/2⌋.toNat + 1) :=
  ⟨⟨by norm_num, (C10_real_bound 0 0 (1/2)).1 (by norm_num)⟩,
   ⟨by norm_num, (C10_real_bound 0 0 ((5 : ℝ)/2)).2 (by norm_num)⟩⟩

/-- The body of log_step with np.e ** x rewritten as exp x. -/
theorem log_step_val_exp (step m x : ℝ) :
    log_step_val step m x = Real.log (1 + (Real.exp x - 1) * (step / m)) / x := by
  rw [log_step_val, Real.exp_one_rpow]

/-- log_step at step 0 evaluates to 0. -/
theorem log_step_val_zero (m x : ℝ) : log_step_val 0 m x = 0 := by
  simp [log_step_val]

/-- log_step at the final step step = step_max evaluates to 1. -/
theorem log_step_val_last (m x : ℝ) (hm : m ≠ 0) (hx : x ≠ 0) :
    log_step_val m m x = 1 := by
  rw [log_step_val_exp, div_self hm, mul_one,
    show 1 + (Real.exp x - 1) = Real.exp x by ring, Real.log_exp, div_self hx]

/-- log_step is monotone in the step argument for positive step_max and
positive steepness. -/
theorem log_step_val_mono (m x : ℝ) (hm : 0 < m) (hx : 0 < x) {s t : ℝ}
    (hs : 0 ≤ s) (hst : s ≤ t) :
    log_step_val s m x ≤ log_step_val t m x := by
  rw [log_step_val_exp, log_step_val_exp]
  have hA : 0 < Real.exp x - 1 := by
    have := Real.one_lt_exp_iff.mpr hx
    linarith
  have hpos : (0 : ℝ) < 1 + (Real.exp x - 1) * (s / m) := by
    have := mul_nonneg hA.le (div_nonneg hs hm.le)
    linarith
  have harg : 1 + (Real.exp x - 1) * (s / m) ≤ 1 + (Real.exp x - 1) * (t / m) := by
    have := mul_le_mul_of_nonneg_left ((div_le_div_right hm).mpr hst) hA.le
    linarith
  exact (div_le_div_right hx).mpr
    ((Real.log_le_log_iff hpos (lt_of_lt_of_le hpos harg)).mpr harg)

/-- C7: log_step computes the easing fraction
ln(1 + (e^x - 1) * i/(frameCount-1)) / x, and for every frameCount > 1 and
steepness x > 0 it maps frame 0 to exactly 0 and frame frameCount - 1 to
exactly 1. -/
theorem C7_easing_formula_endpoints (fc : ℕ) (hfc : 2 ≤ fc) (x : ℝ) (hx : 0 < x) :
    (∀ i : ℕ, log_step (i : ℝ) ((fc : ℝ) - 1) x =
      some (Real.log (1 + (Real.exp x - 1) * ((i : ℝ) / ((fc : ℝ) - 1))) / x)) ∧
    log_step ((0 : ℕ) : ℝ) ((fc : ℝ) - 1) x = some 0 ∧
    log_step (((fc - 1 : ℕ) : ℕ) : ℝ) ((fc : ℝ) - 1) x = some 1 := by
  have hm : ((fc : ℝ) - 1) ≠ 0 := by
    have : (2 : ℝ) ≤ (fc : ℝ) := by exact_mod_cast hfc
    linarith
  have hcond : ¬ (((fc : ℝ) - 1) = 0 ∨ x = 0) := by
    push_neg
    exact ⟨hm, hx.ne'⟩
  refine ⟨?_, ?_, ?_⟩
  · intro i
    rw [log_step, if_neg hcond, log_step_val_exp]
  · rw [log_step, if_neg hcond]
    norm_num [log_step_val_zero]
  · rw [log_step, if_neg hcond]
    rw [show (((fc - 1 : ℕ) : ℕ) : ℝ) = (fc : ℝ) - 1 by
      rw [Nat.cast_sub (by omega : 1 ≤ fc)]; norm_num]
    rw [log_step_val_last _ _ hm hx.ne']

/-- C7 witness at frameCount = 2, x = 1. -/
theorem C7_easing_formula_endpoints_witness :
    ((2 : ℕ) ≤ 2 ∧ (0 : ℝ) < 1) ∧
    ((∀ i : ℕ, log_step (i : ℝ) (((2 : ℕ) : ℝ) - 1) 1 =
      some (Real.log (1 + (Real.exp 1 - 1) * ((i : ℝ) / (((2 : ℕ) : ℝ) - 1))) / 1)) ∧
    log_step ((0 : ℕ) : ℝ) (((2 : ℕ) : ℝ) - 1) 1 = some 0 ∧
    log_step (((2 - 1 : ℕ) : ℕ) : ℝ) (((2 : ℕ) : ℝ) - 1) 1 = some 1) :=
  ⟨⟨le_rfl, by norm_num⟩, C7_easing_formula_endpoints 2 le_rfl 1 (by norm_num)⟩

/-- The four fixed focal distances of main evaluate to these constants. -/
theorem dist_vals : x_dist_l = 1.25 ∧ x_dist_h = 2.75 ∧ y_dist_l = 2.1 ∧ y_dist_h = 1.9 := by
  norm_num [x_dist_l, x_dist_h, y_dist_l, y_dist_h, zoom_on]

/-- When frameCount ≥ 2 and the steepness is nonzero, update_graph succeeds
and produces exactly the source's viewport bounds and depth. -/
theorem update_graph_eq (i fc : ℕ) (hfc : 2 ≤ fc) (zm x nm : ℝ) (hx : x ≠ 0) :
    update_graph i fc zm x nm =
      some ((-2 + x_dist_l * (1 - zm) * log_step_val (i : ℝ) ((fc : ℝ) - 1) x,
             2 - x_dist_h * (1 - zm) * log_step_val (i : ℝ) ((fc : ℝ) - 1) x),
            (-2 + y_dist_l * (1 - zm) * log_step_val (i : ℝ) ((fc : ℝ) - 1) x,
             2 - y_dist_h * (1 - zm) * log_step_val (i : ℝ) ((fc : ℝ) - 1) x),
            20 + (nm - 20) * log_step_val (i : ℝ) ((fc : ℝ) - 1) x) := by
  have hm : ((fc : ℝ) - 1) ≠ 0 := by
    have : (2 : ℝ) ≤ (fc : ℝ) := by exact_mod_cast hfc
    linarith
  rw [update_graph, log_step, if_neg (by push_neg; exact ⟨hm, hx⟩)]
  rfl

/-- The easing fraction of the last frame, index frameCount - 1, is 1. -/
theorem log_step_val_last_frame (fc : ℕ) (hfc : 2 ≤ fc) (x : ℝ) (hx : x ≠ 0) :
    log_step_val (((fc - 1 : ℕ)) : ℝ) ((fc : ℝ) - 1) x = 1 := by
  have hm : ((fc : ℝ) - 1) ≠ 0 := by
    have : (2 : ℝ) ≤ (fc : ℝ) := by exact_mod_cast hfc
    linarith
  rw [show (((fc - 1 : ℕ)) : ℝ) = (fc : ℝ) - 1 by
    rw [Nat.cast_sub (by omega : 1 ≤ fc)]; norm_num]
  exact log_step_val_last _ _ hm hx

/-- The easing fraction of frame 0 is 0. -/
theorem log_step_val_first_frame (fc : ℕ) (x : ℝ) :
    log_step_val (((0 : ℕ)) : ℝ) ((fc : ℝ) - 1) x = 0 := by
  rw [Nat.cast_zero]
  exact log_step_val_zero _ _

/-- C2: for frameCount ≥ 2 and nonzero steepness, frame i's viewport has
x-axis bounds (-2 + d_low (1 - minZoom) f, 2 - d_high (1 - minZoom) f) with
the fixed focal distances d_low = x_dist_l, d_high = x_dist_h (and the same
shape on the y axis); frame 0 is the full [-2,2] x [-2,2] viewport; the
last frame's extent on each axis is minZoom times the original extent 4;
and the focal point's relative position within the frame is preserved
(stated as a cross-product identity valid for every frame). -/
theorem C2_viewport (i fc : ℕ) (hfc : 2 ≤ fc) (zm x nm : ℝ) (hx : 0 < x) :
    update_graph i fc zm x nm =
      some ((-2 + x_dist_l * (1 - zm) * log_step_val (i : ℝ) ((fc : ℝ) - 1) x,
             2 - x_dist_h * (1 - zm) * log_step_val (i : ℝ) ((fc : ℝ) - 1) x),
            (-2 + y_dist_l * (1 - zm) * log_step_val (i : ℝ) ((fc : ℝ) - 1) x,
             2 - y_dist_h * (1 - zm) * log_step_val (i : ℝ) ((fc : ℝ) - 1) x),
            20 + (nm - 20) * log_step_val (i : ℝ) ((fc : ℝ) - 1) x) ∧
    update_graph 0 fc zm x nm = some ((-2, 2), (-2, 2), 20) ∧
    (∀ v, update_graph (fc - 1) fc zm x nm = some v →
      v.1.2 - v.1.1 = zm * 4 ∧ v.2.1.2 - v.2.1.1 = zm * 4) ∧
    (∀ v, update_graph i fc zm x nm = some v →
      (zoom_on.1 - v.1.1) * 4 = x_dist_l * (v.1.2 - v.1.1) ∧
      (zoom_on.2 - v.2.1.1) * 4 = y_dist_l * (v.2.1.2 - v.2.1.1)) := by
  obtain ⟨d1, d2, d3, d4⟩ := dist_vals
  refine ⟨update_graph_eq i fc hfc zm x nm hx.ne', ?_, ?_, ?_⟩
  · rw [update_graph_eq 0 fc hfc zm x nm hx.ne', log_step_val_first_frame]
    norm_num
  · intro v hv
    rw [update_graph_eq (fc - 1) fc hfc zm x nm hx.ne',
      log_step_val_last_frame fc hfc x hx.ne'] at hv
    obtain rfl := Option.some.inj hv
    dsimp only
    rw [d1, d2, d3, d4]
    constructor <;> ring
  · intro v hv
    rw [update_graph_eq i fc hfc zm x nm hx.ne'] at hv
    obtain rfl := Option.some.inj hv
    dsimp only
    rw [d1, d2, d3, d4]
    norm_num [zoom_on]
    constructor <;> ring

/-- C2 witness at i = 1, frameCount = 2, minZoom = 1/2, x = 1, n_max = 85:
frame 0 is the full viewport. -/
theorem C2_viewport_witness :
    ((2 : ℕ) ≤ 2 ∧ (0 : ℝ) < 1) ∧
    update_graph 0 2 (1/2) 1 85 = some ((-2, 2), (-2, 2), 20) :=
  ⟨⟨le_rfl, by norm_num⟩, (C2_viewport 1 2 le_rfl (1/2) 1 85 (by norm_num)).2.1⟩

/-- C6: for frameCount ≥ 2, x > 0, minZoom ≤ 1 and n_max ≥ 20, the easing
fraction is monotonically non-decreasing in the frame index; consequently
each axis interval of frame i+1 is contained in that of frame i with
non-increasing extent, the depth is non-decreasing in i, and the depth of
the last frame reaches the configured maximum n_max. -/
theorem C6_monotone_shrink (fc : ℕ) (hfc : 2 ≤ fc) (x : ℝ) (hx : 0 < x)
    (zm nm : ℝ) (hzm : zm ≤ 1) (hnm : 20 ≤ nm) :
    (∀ i j : ℕ, i ≤ j →
      log_step_val (i : ℝ) ((fc : ℝ) - 1) x ≤ log_step_val (j : ℝ) ((fc : ℝ) - 1) x) ∧
    (∀ i : ℕ, ∀ v w, update_graph i fc zm x nm = some v →
      update_graph (i + 1) fc zm x nm = some w →
      Set.Icc w.1.1 w.1.2 ⊆ Set.Icc v.1.1 v.1.2 ∧
      Set.Icc w.2.1.1 w.2.1.2 ⊆ Set.Icc v.2.1.1 v.2.1.2 ∧
      w.1.2 - w.1.1 ≤ v.1.2 - v.1.1 ∧
      w.2.1.2 - w.2.1.1 ≤ v.2.1.2 - v.2.1.1 ∧
      v.2.2 ≤ w.2.2) ∧
    (∀ v, update_graph (fc - 1) fc zm x nm = some v → v.2.2 = nm) := by
  have hm : (0 : ℝ) < (fc : ℝ) - 1 := by
    have : (2 : ℝ) ≤ (fc : ℝ) := by exact_mod_cast hfc
    linarith
  have hmono : ∀ i j : ℕ, i ≤ j →
      log_step_val (i : ℝ) ((fc : ℝ) - 1) x ≤ log_step_val (j : ℝ) ((fc : ℝ) - 1) x := by
    intro i j hij
    exact log_step_val_mono _ _ hm hx (by positivity) (by exact_mod_cast hij)
  obtain ⟨d1, d2, d3, d4⟩ := dist_vals
  refine ⟨hmono, ?_, ?_⟩
  · intro i v w hv hw
    rw [update_graph_eq i fc hfc zm x nm hx.ne'] at hv
    rw [update_graph_eq (i + 1) fc hfc zm x nm hx.ne'] at hw
    obtain rfl := Option.some.inj hv
    obtain rfl := Option.some.inj hw
    dsimp only
    rw [d1, d2, d3, d4]
    have hf := hmono i (i + 1) (by omega)
    have hz : (0 : ℝ) ≤ 1 - zm := by linarith
    refine ⟨Set.Icc_subset_Icc (by nlinarith) (by nlinarith),
      Set.Icc_subset_Icc (by nlinarith) (by nlinarith),
      by nlinarith, by nlinarith, by nlinarith⟩
  · intro v hv
    rw [update_graph_eq (fc - 1) fc hfc zm x nm hx.ne',
      log_step_val_last_frame fc hfc x hx.ne'] at hv
    obtain rfl := Option.some.inj hv
    dsimp only
    ring

/-- C6 witness at frameCount = 2, x = 1, minZoom = 1/2, n_max = 85: the
easing fraction is non-decreasing in the frame index. -/
theorem C6_monotone_shrink_witness :
    ((2 : ℕ) ≤ 2 ∧ (0 : ℝ) < 1 ∧ (1 : ℝ)/2 ≤ 1 ∧ (20 : ℝ) ≤ 85) ∧
    (∀ i j : ℕ, i ≤ j →
      log_step_val (i : ℝ) (((2 : ℕ) : ℝ) - 1) 1 ≤ log_step_val (j : ℝ) (((2 : ℕ) : ℝ) - 1) 1) :=
  ⟨⟨le_rfl, by norm_num, by norm_num, by norm_num⟩,
   (C6_monotone_shrink 2 le_rfl 1 (by norm_num) (1/2) 85 (by norm_num) (by norm_num)).1⟩

/-- C3: the code has no special case for frameCount = 1.  With fcount = 1
the frame callback calls log_step(i, 0, zoom_factor), whose division
step/step_max is a division by zero: Python raises ZeroDivisionError
(modelled as none) instead of returning the fraction 0 demanded by the
specification. -/
theorem C3_no_special_case :
    log_step ((0 : ℕ) : ℝ) (((1 : ℕ) : ℝ) - 1) 3 = none ∧
    update_graph 0 1 (1/1000000) 3 85 = none := by
  constructor
  · rw [log_step, if_pos]
    norm_num
  · rw [update_graph, log_step, if_pos]
    · rfl
    · norm_num

/-- C5 counterexample: at the interior frame i = 1 of frameCount = 3 (so
step = 1, step_max = 2), the easing fraction for steepness x1 = 1 is
STRICTLY SMALLER than for x2 = 2, refuting the claimed inequality
fraction(i, x1) ≥ fraction(i, x2) for x1 < x2. -/
theorem C5_counterexample :
    log_step 1 2 1 = some (log_step_val 1 2 1) ∧
    log_step 1 2 2 = some (log_step_val 1 2 2) ∧
    log_step_val 1 2 1 < log_step_val 1 2 2 := by
  refine ⟨by rw [log_step, if_neg (by norm_num)],
    by rw [log_step, if_neg (by norm_num)], ?_⟩
  rw [log_step_val_exp, log_step_val_exp]
  have hE := Real.exp_one_gt_d9
  have hE1 : (1 : ℝ) < Real.exp 1 := by linarith
  have hE2 : Real.exp 2 = Real.exp 1 * Real.exp 1 := by
    rw [show (2 : ℝ) = 1 + 1 by norm_num, Real.exp_add]
  have h1 : (1 : ℝ) + (Real.exp 1 - 1) * (1/2) = (Real.exp 1 + 1)/2 := by ring
  have h2 : (1 : ℝ) + (Real.exp 2 - 1) * (1/2) = (Real.exp 1 * Real.exp 1 + 1)/2 := by
    rw [hE2]; ring
  rw [h1, h2, div_one, lt_div_iff (by norm_num : (0 : ℝ) < 2)]
  have hsq : Real.log (((Real.exp 1 + 1)/2) ^ (2 : ℕ)) =
      2 * Real.log ((Real.exp 1 + 1)/2) := by
    rw [Real.log_pow]; norm_num
  have hp : (0 : ℝ) < (Real.exp 1 - 1) ^ 2 := pow_pos (by linarith) 2
  have hlt : (((Real.exp 1 + 1)/2) ^ (2 : ℕ) : ℝ) <
      (Real.exp 1 * Real.exp 1 + 1)/2 := by nlinarith [hp]
  calc Real.log ((Real.exp 1 + 1)/2) * 2
      = Real.log (((Real.exp 1 + 1)/2) ^ (2 : ℕ)) := by rw [hsq]; ring
    _ < Real.log ((Real.exp 1 * Real.exp 1 + 1)/2) :=
        Real.log_lt_log (by positivity) hlt

/-- C5 amended: the claimed inequality holds in the opposite direction.
For 0 < x1 < x2 and an interior frame index 0 < i < frameCount - 1, the
steeper easing ADVANCES midpoint progress:
fraction(i, x1) ≤ fraction(i, x2). -/
theorem C5_amended_steeper_advances (fc : ℕ) (hfc : 1 < fc) (i : ℕ) (hi0 : 0 < i)
    (hi : i < fc - 1) (x1 x2 : ℝ) (hx1 : 0 < x1) (hx12 : x1 < x2) :
    log_step_val (i : ℝ) ((fc : ℝ) - 1) x1 ≤ log_step_val (i : ℝ) ((fc : ℝ) - 1) x2 := by
  have hx2 : (0 : ℝ) < x2 := lt_trans hx1 hx12
  have hm : (0 : ℝ) < (fc : ℝ) - 1 := by
    have : (2 : ℝ) ≤ (fc : ℝ) := by exact_mod_cast hfc
    linarith
  set m : ℝ := (fc : ℝ) - 1 with hm_def
  set t : ℝ := (i : ℝ) / m with ht_def
  have ht0 : 0 < t := div_pos (by exact_mod_cast hi0) hm
  have ht1 : t ≤ 1 := by
    rw [ht_def, div_le_one hm, hm_def]
    have h2 : (i : ℝ) < ((fc - 1 : ℕ) : ℝ) := by exact_mod_cast hi
    rw [Nat.cast_sub (by omega : 1 ≤ fc), Nat.cast_one] at h2
    linarith
  rw [log_step_val_exp, log_step_val_exp]
  set s : ℝ := x1 / x2 with hs_def
  have hs0 : (0 : ℝ) ≤ s := by positivity
  have hs1 : s ≤ 1 := le_of_lt ((div_lt_one hx2).mpr hx12)
  set u : ℝ := Real.exp x2 with hu_def
  have hu1 : 1 < u := Real.one_lt_exp_iff.mpr hx2
  have hux1 : Real.exp x1 = u ^ s := by
    rw [hu_def, hs_def, ← Real.exp_mul]
    congr 1
    field_simp
  have hconc := (Real.concaveOn_rpow hs0 hs1).2
    (Set.mem_Ici.mpr zero_le_one) (Set.mem_Ici.mpr (by linarith : (0 : ℝ) ≤ u))
    (by linarith : (0 : ℝ) ≤ 1 - t) ht0.le (by ring)
  simp only [smul_eq_mul, Real.one_rpow, mul_one] at hconc
  have harg1 : (1 : ℝ) + (Real.exp x1 - 1) * ((i : ℝ)/m) = (1 - t) + t * u ^ s := by
    rw [hux1, ← ht_def]; ring
  have harg2 : (1 : ℝ) + (Real.exp x2 - 1) * ((i : ℝ)/m) = (1 - t) + t * u := by
    rw [← hu_def, ← ht_def]; ring
  rw [harg1, harg2]
  have hups : (0 : ℝ) < u ^ s := Real.rpow_pos_of_pos (by linarith) s
  have hbase1 : (0 : ℝ) < (1 - t) + t * u ^ s := by nlinarith
  have hbase2 : (0 : ℝ) < (1 - t) + t * u := by nlinarith
  have hlog1 : Real.log ((1 - t) + t * u ^ s) ≤ s * Real.log ((1 - t) + t * u) := by
    calc Real.log ((1 - t) + t * u ^ s)
        ≤ Real.log (((1 - t) + t * u) ^ s) :=
          (Real.log_le_log_iff hbase1 (Real.rpow_pos_of_pos hbase2 s)).mpr hconc
      _ = s * Real.log ((1 - t) + t * u) := Real.log_rpow hbase2 s
  have hlog2 : (0 : ℝ) ≤ Real.log ((1 - t) + t * u) := Real.log_nonneg (by nlinarith)
  rw [div_le_div_iff hx1 hx2]
  calc Real.log ((1 - t) + t * u ^ s) * x2
      ≤ (s * Real.log ((1 - t) + t * u)) * x2 := mul_le_mul_of_nonneg_right hlog1 hx2.le
    _ = Real.log ((1 - t) + t * u) * x1 := by rw [hs_def]; field_simp; ring

/-- C5 amended witness at frameCount = 3, i = 1, x1 = 1, x2 = 2. -/
theorem C5_amended_steeper_advances_witness :
    ((1 : ℕ) < 3 ∧ 0 < (1 : ℕ) ∧ (1 : ℕ) < 3 - 1 ∧ (0 : ℝ) < 1 ∧ (1 : ℝ) < 2) ∧
    log_step_val ((1 : ℕ) : ℝ) (((3 : ℕ) : ℝ) - 1) 1 ≤
      log_step_val ((1 : ℕ) : ℝ) (((3 : ℕ) : ℝ) - 1) 2 :=
  ⟨⟨by norm_num, by norm_num, by norm_num, by norm_num, by norm_num⟩,
   C5_amended_steeper_advances 3 (by norm_num) 1 (by norm_num) (by norm_num)
     1 2 (by norm_num) (by norm_num)⟩

/-- C4 counterexample: at frame i = 1 of frameCount = 3 with zoom_factor 1
and n_max = 22, the depth handed to calc_frame is 20 + 2 ln((e+1)/2), which
lies strictly between 21 and 22 and is therefore NOT equal to any rounded
integer value: the source passes the unrounded float straight through. -/
theorem C4_counterexample :
    (update_graph 1 3 (1/2) 1 22).map (fun v => v.2.2) =
      some (20 + 2 * Real.log ((Real.exp 1 + 1) / 2)) ∧
    (21 : ℝ) < 20 + 2 * Real.log ((Real.exp 1 + 1) / 2) ∧
    (20 + 2 * Real.log ((Real.exp 1 + 1) / 2) : ℝ) < 22 ∧
    (20 + 2 * Real.log ((Real.exp 1 + 1) / 2) : ℝ) ≠
      ((round (20 + 2 * Real.log ((Real.exp 1 + 1) / 2) : ℝ) : ℤ) : ℝ) := by
  have hE := Real.exp_one_gt_d9
  have hL1 : (1 : ℝ)/2 < Real.log ((Real.exp 1 + 1)/2) := by
    rw [Real.lt_log_iff_exp_lt (by nlinarith)]
    rw [show ((1 : ℝ)/2) = 1/2 from rfl, Real.exp_half]
    have hs := Real.sq_sqrt (by positivity : (0 : ℝ) ≤ Real.exp 1)
    have hs1 : 1 < Real.sqrt (Real.exp 1) :=
      (Real.lt_sqrt (by norm_num)).mpr (by nlinarith)
    nlinarith [hs, mul_pos (sub_pos.mpr hs1) (sub_pos.mpr hs1)]
  have hL2 : Real.log ((Real.exp 1 + 1)/2) < 1 := by
    rw [Real.log_lt_iff_lt_exp (by nlinarith)]
    nlinarith
  refine ⟨?_, by linarith, by linarith, ?_⟩
  · rw [update_graph_eq 1 3 (by norm_num) (1/2) 1 22 (by norm_num)]
    have hval : log_step_val ((1 : ℕ) : ℝ) (((3 : ℕ) : ℝ) - 1) 1 =
        Real.log ((Real.exp 1 + 1)/2) := by
      rw [log_step_val_exp, div_one]
      norm_num
      congr 1
      ring
    rw [hval]
    norm_num
  · intro h
    have h1 : (21 : ℤ) < round (20 + 2 * Real.log ((Real.exp 1 + 1) / 2) : ℝ) := by
      exact_mod_cast (h ▸ (by linarith :
        (21 : ℝ) < 20 + 2 * Real.log ((Real.exp 1 + 1) / 2)))
    have h2 : round (20 + 2 * Real.log ((Real.exp 1 + 1) / 2) : ℝ) < (22 : ℤ) := by
      exact_mod_cast (h ▸ (by linarith :
        (20 + 2 * Real.log ((Real.exp 1 + 1) / 2) : ℝ) < 22))
    omega

/-- C4 amended: the depth handed to the grid sampler for frame i is the
UNROUNDED real value 20 + (n_max - 20) * fraction(i); the fixed-depth
configuration n_max = 20 yields the constant depth 20; and the escape-time
evaluator treats the fractional depth by flooring it (its loop runs while
n ≤ depth), not by rounding. -/
theorem C4_amended_depth (i fc : ℕ) (x zm nm : ℝ) (v : (ℝ × ℝ) × (ℝ × ℝ) × ℝ)
    (hfc : 2 ≤ fc) (hx : 0 < x) (hv : update_graph i fc zm x nm = some v) :
    v.2.2 = 20 + (nm - 20) * log_step_val (i : ℝ) ((fc : ℝ) - 1) x ∧
    (nm = 20 → v.2.2 = 20) ∧
    (1 ≤ v.2.2 → ∀ xr xi, n_for_point xr xi v.2.2 =
      n_for_point xr xi ((⌊v.2.2⌋.toNat : ℕ) : ℝ)) := by
  rw [update_graph_eq i fc hfc zm x nm hx.ne'] at hv
  obtain rfl := Option.some.inj hv
  dsimp only
  refine ⟨rfl, ?_, ?_⟩
  · intro h; rw [h]; ring
  · intro h xr xi
    exact n_for_point_floor xr xi _ h

/-- C4 amended witness at i = 0, frameCount = 2, x = 1, minZoom = 0,
n_max = 85: the depth handed over is 20 = 20 + 65 * 0. -/
theorem C4_amended_depth_witness :
    ((2 : ℕ) ≤ 2 ∧ (0 : ℝ) < 1 ∧
      update_graph 0 2 0 1 85 = some ((-2, 2), (-2, 2), 20)) ∧
    ((((-2, 2), (-2, 2), 20) : (ℝ × ℝ) × (ℝ × ℝ) × ℝ)).2.2 =
      20 + (85 - 20) * log_step_val ((0 : ℕ) : ℝ) (((2 : ℕ) : ℝ) - 1) 1 := by
  have hv : update_graph 0 2 0 1 85 = some ((-2, 2), (-2, 2), 20) := by
    rw [update_graph_eq 0 2 le_rfl 0 1 85 (by norm_num), log_step_val_first_frame]
    norm_num
  exact ⟨⟨le_rfl, by norm_num, hv⟩,
    (C4_amended_depth 0 2 1 0 85 ((-2, 2), (-2, 2), 20) le_rfl (by norm_num) hv).1⟩

/-- linspace always produces exactly num samples. -/
theorem linspace_length (a b : ℝ) (num : ℕ) : (linspace a b num).length = num := by
  rw [linspace]
  split_ifs with h
  · simp [h]
  · rw [List.length_map, List.length_range]

/-- The i-th linspace sample, for num ≥ 2. -/
theorem linspace_getD (a b : ℝ) (num : ℕ) (i : ℕ) (hi : i < num) (h2 : 2 ≤ num) :
    (linspace a b num).getD i 0 = a + (b - a) * i / ((num : ℝ) - 1) := by
  rw [linspace, if_neg (by omega)]
  rw [List.getD_eq_getElem _ _
    (by rw [List.length_map, List.length_range]; exact hi)]
  rw [List.getElem_map, List.getElem_range]

/-- The first linspace sample is the lower endpoint a. -/
theorem linspace_head (a b : ℝ) (num : ℕ) (h : 1 ≤ num) :
    (linspace a b num).getD 0 0 = a := by
  rcases eq_or_lt_of_le h with h1 | h2
  · rw [linspace, if_pos h1.symm]
    rfl
  · rw [linspace_getD a b num 0 (by omega) (by omega)]
    simp

/-- The last linspace sample is the upper endpoint b, for num ≥ 2. -/
theorem linspace_last (a b : ℝ) (num : ℕ) (h : 2 ≤ num) :
    (linspace a b num).getD (num - 1) 0 = b := by
  rw [linspace_getD a b num (num - 1) (by omega) h]
  rw [Nat.cast_sub (by omega : 1 ≤ num), Nat.cast_one]
  have hne : (num : ℝ) - 1 ≠ 0 := by
    have : (2 : ℝ) ≤ (num : ℝ) := by exact_mod_cast h
    linarith
  rw [mul_div_assoc, div_self hne, mul_one]
  ring

/-- Cell (row, col) of calc_frame is the escape time of the point
(x_vector[col], y_vector[row]). -/
theorem calc_frame_getD (xs ys : ℝ × ℝ) (R : ℕ) (nm : ℝ) (i j : ℕ)
    (hi : i < R) (hj : j < R) :
    ((calc_frame xs ys R nm).getD i []).getD j 0 =
      n_for_point ((linspace xs.1 xs.2 R).getD j 0)
        ((linspace ys.1 ys.2 R).getD i 0) nm := by
  simp only [calc_frame]
  have hyl : (linspace ys.1 ys.2 R).length = R := linspace_length _ _ _
  have hxl : (linspace xs.1 xs.2 R).length = R := linspace_length _ _ _
  have hrow : (List.map (fun y => List.map (fun x => n_for_point x y nm)
        (linspace xs.1 xs.2 R)) (linspace ys.1 ys.2 R)).getD i [] =
      List.map (fun x => n_for_point x ((linspace ys.1 ys.2 R).getD i 0) nm)
        (linspace xs.1 xs.2 R) := by
    rw [List.getD_eq_getElem _ _ (show i < (List.map (fun y =>
        List.map (fun x => n_for_point x y nm) (linspace xs.1 xs.2 R))
        (linspace ys.1 ys.2 R)).length by rw [List.length_map, hyl]; exact hi)]
    rw [List.getElem_map]
    rw [List.getD_eq_getElem _ _ (show i < (linspace ys.1 ys.2 R).length by
      rw [hyl]; exact hi)]
  rw [hrow]
  rw [List.getD_eq_getElem _ _ (show j < (List.map (fun x =>
      n_for_point x ((linspace ys.1 ys.2 R).getD i 0) nm)
      (linspace xs.1 xs.2 R)).length by rw [List.length_map, hxl]; exact hj)]
  rw [List.getElem_map]
  rw [List.getD_eq_getElem _ _ (show j < (linspace xs.1 xs.2 R).length by
    rw [hxl]; exact hj)]

/-- C8: for every viewport and every resolution R ≥ 1, calc_frame returns an
R x R grid whose cell (row, col) is the escape time of the point
(x[col], y[row]), where x and y are the R evenly spaced samples of each
axis's bounds including both endpoints; for R = 1 the grid is the single
point at each axis's first bound. -/
theorem C8_grid (xs ys : ℝ × ℝ) (R : ℕ) (nm : ℝ) (hR : 1 ≤ R) :
    (calc_frame xs ys R nm).length = R ∧
    (∀ row ∈ calc_frame xs ys R nm, row.length = R) ∧
    (∀ i j : ℕ, i < R → j < R →
      ((calc_frame xs ys R nm).getD i []).getD j 0 =
        n_for_point ((linspace xs.1 xs.2 R).getD j 0)
          ((linspace ys.1 ys.2 R).getD i 0) nm) ∧
    (linspace xs.1 xs.2 R).getD 0 0 = xs.1 ∧
    (linspace ys.1 ys.2 R).getD 0 0 = ys.1 ∧
    (2 ≤ R →
      (linspace xs.1 xs.2 R).getD (R - 1) 0 = xs.2 ∧
      (linspace ys.1 ys.2 R).getD (R - 1) 0 = ys.2 ∧
      ∀ i : ℕ, i < R →
        (linspace xs.1 xs.2 R).getD i 0 = xs.1 + (xs.2 - xs.1) * i / ((R : ℝ) - 1) ∧
        (linspace ys.1 ys.2 R).getD i 0 = ys.1 + (ys.2 - ys.1) * i / ((R : ℝ) - 1)) ∧
    (R = 1 → calc_frame xs ys R nm = [[n_for_point xs.1 ys.1 nm]]) := by
  refine ⟨?_, ?_, fun i j hi hj => calc_frame_getD xs ys R nm i j hi hj,
    linspace_head _ _ _ hR, linspace_head _ _ _ hR, ?_, ?_⟩
  · simp only [calc_frame]
    rw [List.length_map, linspace_length]
  · intro row hrow
    simp only [calc_frame, List.mem_map] at hrow
    obtain ⟨y, _, rfl⟩ := hrow
    rw [List.length_map, linspace_length]
  · intro h2
    exact ⟨linspace_last _ _ _ h2, linspace_last _ _ _ h2,
      fun i hi => ⟨linspace_getD _ _ _ i hi h2, linspace_getD _ _ _ i hi h2⟩⟩
  · intro h1
    subst h1
    simp [calc_frame, linspace]

/-- C8 witness at the degenerate resolution R = 1. -/
theorem C8_grid_witness :
    1 ≤ 1 ∧
    ((1 : ℕ) = 1 → calc_frame (-2, 2) (-2, 2) 1 5 = [[n_for_point (-2) (-2) 5]]) :=
  ⟨le_rfl, (C8_grid (-2, 2) (-2, 2) 1 5 le_rfl).2.2.2.2.2.2⟩
